import Mathlib

/-!
Verification of the boundary-aware video captioning model (model.py).

Shallow embedding conventions:
* A tensor row is a `List ℚ` (`Vec`); a 2-D tensor of shape (batch, features)
  is a `List (List ℚ)` (`Mat`, batch-major); a 3-D frame-feature tensor of
  shape (batch, frames, frame_size) is a `List Mat`.
* Floating point is modelled by exact rationals.
* The transcendental activations (sigmoid, tanh) inside `nn.LSTMCell`,
  `nn.GRUCell` and `BoundaryDetector` have no exact rational form; they are
  abstracted: `BoundaryDetector.forward` takes the sigmoid as an explicit
  function argument, and the recurrent cells and dropout layers of `Encoder`
  and `Decoder` are function-valued fields of the module structures.  All
  theorems quantify over these functions, so they hold in particular for the
  concrete PyTorch cells.
* Randomness (`random.uniform`, `random.random`, dropout masks) is made
  explicit: each sampled value is an argument (`rand : ℚ` for the BinaryGate
  threshold, `coins : ℕ → ℚ` for the per-step teacher-forcing draws), and
  dropout layers are arbitrary functions.
-/

abbrev Vec := List ℚ

abbrev Mat := List (List ℚ)

/-- Dot product of two rows (zip-truncating, as both always have equal length
in the source). -/
def dot (a b : Vec) : ℚ := (List.zipWith (fun x y => x * y) a b).sum

/-- Model of `F.linear` applied to a single input row: `W · x`. -/
def linearMap (W : Mat) (x : Vec) : Vec := W.map (fun row => dot row x)

/-- Model of `F.linear(input, W)` on a batch-major matrix: each input row is mapped
through the weight matrix. -/
def matLinear (x : Mat) (W : Mat) : Mat := x.map (fun row => linearMap W row)

def vecAdd (a b : Vec) : Vec := List.zipWith (fun x y => x + y) a b

def matAdd (a b : Mat) : Mat := List.zipWith vecAdd a b

/-- Bias addition: the bias row is broadcast over the batch dimension. -/
def addBias (m : Mat) (b : Vec) : Mat := m.map (fun row => vecAdd row b)

namespace BinaryGate

/-- One element of `BinaryGate.forward` (model.py lines 74-75).  The source
performs two sequential masked in-place assignments on the output tensor:
`output[output > thrs] = 1` followed by `output[output <= thrs] = 0`; the
second test reads the value produced by the first. -/
def gateElem (thrs x : ℚ) : ℚ :=
  let x1 := if thrs < x then 1 else x
  if x1 ≤ thrs then 0 else x1

/-- Embedding of `BinaryGate.forward(ctx, input, training, inplace)` (model.py lines
68-78).  `ctx.thrs = random.uniform(0, 1) if training else 0.5`; the sampled
value is the explicit argument `rand`.  The `inplace` flag only controls
whether the input storage is reused and has no effect on the returned value,
so it does not appear in the pure model. -/
def forward (input : Mat) (training : Bool) (rand : ℚ) : Mat :=
  let thrs := if training then rand else (1 : ℚ) / 2
  input.map (fun row => row.map (fun x => gateElem thrs x))

/-- Embedding of `BinaryGate.backward(ctx, grad_output)` (model.py lines 80-82): returns
`grad_output, None, None`. -/
def backward (grad : Mat) : Mat × Option Mat × Option Mat := (grad, none, none)

end BinaryGate

/-- C4: `BinaryGate.forward` in inference mode (`training = false`) uses the
fixed threshold 1/2 on every call, so the result does not depend on the
sampled value and two calls on the same input agree; in training mode the
threshold is the per-call sample, and there is an input together with two
samples in [0,1] on which the outputs differ. -/
theorem binaryGate_inference_deterministic_training_stochastic :
    (∀ (input : Mat) (r1 r2 : ℚ),
        BinaryGate.forward input false r1 = BinaryGate.forward input false r2) ∧
    (∀ (input : Mat) (r : ℚ),
        BinaryGate.forward input false r =
          input.map (fun row => row.map (fun x => BinaryGate.gateElem ((1 : ℚ) / 2) x))) ∧
    (∃ (input : Mat) (r1 r2 : ℚ), 0 ≤ r1 ∧ r1 ≤ 1 ∧ 0 ≤ r2 ∧ r2 ≤ 1 ∧
        BinaryGate.forward input true r1 ≠ BinaryGate.forward input true r2) := by
  refine ⟨fun input r1 r2 => rfl, fun input r => rfl, ⟨[[1/2]], 1/4, 3/4, ?_⟩⟩
  refine ⟨by norm_num, by norm_num, by norm_num, by norm_num, ?_⟩
  have h1 : BinaryGate.forward [[1/2]] true (1/4) = [[1]] := by
    norm_num [BinaryGate.forward, BinaryGate.gateElem]
  have h2 : BinaryGate.forward [[1/2]] true (3/4) = [[0]] := by
    norm_num [BinaryGate.forward, BinaryGate.gateElem]
  rw [h1, h2]
  simp

/-- C5: `BinaryGate.backward` returns the incoming gradient unchanged as the
gradient for the pre-threshold input, and `None` for the `training` and
`inplace` flag arguments. -/
theorem binaryGate_backward_straight_through (g : Mat) :
    BinaryGate.backward g = (g, none, none) ∧
    (BinaryGate.backward g).1 = g ∧
    (BinaryGate.backward g).2.1 = none ∧ (BinaryGate.backward g).2.2 = none :=
  ⟨rfl, rfl, rfl, rfl⟩

/-- Parameters of the `BoundaryDetector` module (model.py lines 90-96):
`Wsi : (s_features, i_features)`, `Wsh : (s_features, h_features)`,
`bias : (s_features)`, `vs : (1, s_features)`. -/
structure BoundaryDetector where
  Wsi : Mat
  Wsh : Mat
  bias : Vec
  vs : Mat

namespace BoundaryDetector

/-- Embedding of `BoundaryDetector.forward(x, h)` (model.py lines 106-109):
`z = F.linear(x, Wsi) + F.linear(h, Wsh) + bias`,
`z = sigmoid(F.linear(z, vs))`, `return BinaryGate.apply(z, training, inplace)`.
The sigmoid is the explicit function argument `sig`; `training` and the
sampled threshold `rand` are as in `BinaryGate.forward`. -/
def forward (sig : ℚ → ℚ) (bd : BoundaryDetector) (x h : Mat)
    (training : Bool) (rand : ℚ) : Mat :=
  let z := addBias (matAdd (matLinear x bd.Wsi) (matLinear h bd.Wsh)) bd.bias
  let z2 := (matLinear z bd.vs).map (fun row => row.map sig)
  BinaryGate.forward z2 training rand

end BoundaryDetector

/-- Each element produced by the BinaryGate thresholding is exactly 0 or 1. -/
theorem BinaryGate.gateElem_eq_zero_or_one (thrs x : ℚ) :
    BinaryGate.gateElem thrs x = 0 ∨ BinaryGate.gateElem thrs x = 1 := by
  unfold BinaryGate.gateElem
  by_cases h1 : thrs < x
  · simp only [h1, if_true]
    by_cases h2 : (1 : ℚ) ≤ thrs <;> simp [h2]
  · simp only [h1, if_false]
    have hx : x ≤ thrs := le_of_not_lt h1
    simp [hx]

/-- C3: `BoundaryDetector.forward` computes the scalar affinity
`z = sigmoid(vs · (Wsi·x + Wsh·h + bias))` (visible in its definition) and
then binarizes it through the BinaryGate, so every element of its output is
exactly 0 or exactly 1, never an intermediate value — for any sigmoid, any
parameters, either mode and any sampled threshold. -/
theorem boundaryDetector_output_binary (sig : ℚ → ℚ) (bd : BoundaryDetector)
    (x h : Mat) (training : Bool) (rand : ℚ) (row : Vec) (y : ℚ)
    (hrow : row ∈ BoundaryDetector.forward sig bd x h training rand)
    (hy : y ∈ row) :
    y = 0 ∨ y = 1 := by
  unfold BoundaryDetector.forward BinaryGate.forward at hrow
  simp only [List.mem_map] at hrow
  obtain ⟨r0, _, hr0⟩ := hrow
  subst hr0
  simp only [List.mem_map] at hy
  obtain ⟨x0, _, hx0⟩ := hy
  subst hx0
  exact BinaryGate.gateElem_eq_zero_or_one _ x0

/-- Witness for C3 at a concrete instantiation: sigmoid instantiated as the
identity, 1×1 parameters, a single batch row. -/
theorem boundaryDetector_output_binary_witness :
    (BoundaryDetector.forward (fun q => q) ⟨[[1]], [[1]], [0], [[1]]⟩
        [[1]] [[1]] false 0).getD 0 [] = [1] ∧
    ((1 : ℚ) = 0 ∨ (1 : ℚ) = 1) := by
  have hval : BoundaryDetector.forward (fun q => q) ⟨[[1]], [[1]], [0], [[1]]⟩
      [[1]] [[1]] false 0 = [[1]] := by
    norm_num [BoundaryDetector.forward, BinaryGate.forward, BinaryGate.gateElem,
      matLinear, matAdd, addBias, linearMap, vecAdd, dot]
  refine ⟨by rw [hval]; rfl, ?_⟩
  have hmem1 : ([1] : Vec) ∈ BoundaryDetector.forward (fun q => q)
      ⟨[[1]], [[1]], [0], [[1]]⟩ [[1]] [[1]] false 0 := by
    rw [hval]; simp
  have hmem2 : (1 : ℚ) ∈ ([1] : Vec) := by simp
  exact boundaryDetector_output_binary (fun q => q) ⟨[[1]], [[1]], [0], [[1]]⟩
    [[1]] [[1]] false 0 [1] 1 hmem1 hmem2

/-- Broadcast multiplication of a `(batch, features)` matrix by a
`(batch, 1)` gate (one scalar per batch row), as in `lstm1_h * s` of
model.py lines 175/179-180. -/
def rowScale (m : Mat) (s : List ℚ) : Mat :=
  List.zipWith (fun row a => row.map (fun q => q * a)) m s

/-- The `Encoder` module (model.py lines 115-148).  The submodules are
function-valued fields: `frame_embed` is the per-row linear projection,
`frame_drop`/`lstm1_drop`/`lstm2_drop` are the (randomly masked) dropout
layers, `lstm1_cell`/`lstm2_cell` are the `nn.LSTMCell`s mapping
`(input, (h, c))` to the new `(h, c)`, and `bd` is the boundary detector,
whose `(batch, 1)` output is represented by its per-row scalar. -/
structure Encoder where
  frame_size : ℕ
  projected_size : ℕ
  hidden_size : ℕ
  max_frames : ℕ
  frame_embed : Vec → Vec
  frame_drop : List Mat → List Mat
  lstm1_cell : Mat → Mat × Mat → Mat × Mat
  lstm1_drop : Mat → Mat
  bd : Mat → Mat → List ℚ
  lstm2_cell : Mat → Mat × Mat → Mat × Mat
  lstm2_drop : Mat → Mat

namespace Encoder

/-- Embedding of `Encoder._init_lstm_state` (model.py lines 150-153): a pair of zero
matrices of shape `(batch, hidden_size)`. -/
def init_lstm_state (e : Encoder) (bsz : ℕ) : Mat × Mat :=
  (List.replicate bsz (List.replicate e.hidden_size (0 : ℚ)),
   List.replicate bsz (List.replicate e.hidden_size (0 : ℚ)))

/-- Model.py lines 164-167: the input is flattened to
`(batch*frames, frame_size)`, projected row-wise by `frame_embed`, passed
through elementwise dropout and reshaped back to
`(batch, frames, projected_size)`.  Since the projection acts per row and
dropout acts per element, the flatten/reshape pair is the identity on this
nested-list representation and is elided. -/
def projectFrames (e : Encoder) (video_feats : List Mat) : List Mat :=
  e.frame_drop (video_feats.map (fun frames => frames.map e.frame_embed))

end Encoder

/-- Indexing `v[:, i, :]`: frame `i` of every batch element. -/
def frameAt (v : List Mat) (i : ℕ) : Mat := v.map (fun rows => rows.getD i [])

namespace Encoder

/-- The body of the loop of `Encoder.forward` (model.py lines 169-181),
acting on the state `(lstm1_h, lstm1_c, lstm2_h, lstm2_c)`:
`s = bd(v[:, i, :], lstm1_h)`;
`lstm1_h, lstm1_c = lstm1_cell(v[:, i, :], (lstm1_h, lstm1_c))`;
`lstm1_h = lstm1_drop(lstm1_h)`; `lstm2_input = lstm1_h * s`;
`lstm2_h, lstm2_c = lstm2_cell(lstm2_input, (lstm2_h, lstm2_c))`;
`lstm2_h = lstm2_drop(lstm2_h)`; `lstm1_h = lstm1_h * (1 - s)`;
`lstm1_c = lstm1_c * (1 - s)`. -/
def step (e : Encoder) (x : Mat) (st : Mat × Mat × Mat × Mat) :
    Mat × Mat × Mat × Mat :=
  let s := e.bd x st.1
  let hc1 := e.lstm1_cell x (st.1, st.2.1)
  let lstm1_h := e.lstm1_drop hc1.1
  let lstm2_input := rowScale lstm1_h s
  let hc2 := e.lstm2_cell lstm2_input (st.2.2.1, st.2.2.2)
  let lstm2_h := e.lstm2_drop hc2.1
  (rowScale lstm1_h (s.map (fun a => 1 - a)),
   rowScale hc1.2 (s.map (fun a => 1 - a)),
   lstm2_h, hc2.2)

/-- Embedding of `Encoder.forward` (model.py lines 155-182): initialize both LSTM states
to zero, project the frames, run the boundary-aware loop for `max_frames`
steps, and return the final low-level hidden state `lstm1_h`. -/
def forward (e : Encoder) (video_feats : List Mat) : Mat :=
  let batch_size := video_feats.length
  let st1 := e.init_lstm_state batch_size
  let st2 := e.init_lstm_state batch_size
  let v := e.projectFrames video_feats
  ((List.range e.max_frames).foldl
      (fun st i => Encoder.step e (frameAt v i) st)
      (st1.1, st1.2, st2.1, st2.2)).1

end Encoder

/-- Value of `getD` of a mapped list below its length. -/
theorem getD_map_lt (f : ℚ → ℚ) (s : List ℚ) (b : ℕ) (hb : b < s.length) :
    (s.map f).getD b 0 = f (s.getD b 0) := by
  induction s generalizing b with
  | nil => simp at hb
  | cons a s' ih =>
    cases b with
    | zero => rfl
    | succ b' => exact ih b' (by simpa using hb)

/-- Value of `getD` of `rowScale` below both lengths. -/
theorem rowScale_getD (m : Mat) (s : List ℚ) (b : ℕ)
    (hm : b < m.length) (hs : b < s.length) :
    (rowScale m s).getD b [] = (m.getD b []).map (fun q => q * s.getD b 0) := by
  induction m generalizing s b with
  | nil => simp at hm
  | cons r m' ih =>
    cases s with
    | nil => simp at hs
    | cons a s' =>
      cases b with
      | zero => rfl
      | succ b' =>
        simpa [rowScale] using ih s' b' (by simpa using hm) (by simpa using hs)

theorem map_mul_zero_eq (row : Vec) :
    row.map (fun q => q * 0) = List.replicate row.length 0 := by
  induction row with
  | nil => rfl
  | cons a r ih => simp [List.replicate_succ, ih]

/-- C1: the loop body of `Encoder.forward` (each time step, by the fold
equation in the first conjunct) advances the high-level LSTM cell
unconditionally with input `lstm1_drop(h1) * s` (the gated dropout-applied
low-level hidden state), and afterwards multiplies both the low-level hidden
and cell state elementwise by `(1 - s)`; for any batch row `b`, `s_b = 1`
wipes that row of the low-level state to zero and `s_b = 0` leaves it
unchanged for the next step. -/
theorem encoder_step_gating (e : Encoder) (x h1 c1 h2 c2 : Mat) (b : ℕ)
    (hb : b < (e.bd x h1).length)
    (hbh : b < (e.lstm1_drop (e.lstm1_cell x (h1, c1)).1).length)
    (hbc : b < ((e.lstm1_cell x (h1, c1)).2).length) :
    (∀ vf : List Mat, Encoder.forward e vf =
      ((List.range e.max_frames).foldl
          (fun st i => Encoder.step e (frameAt (e.projectFrames vf) i) st)
          ((e.init_lstm_state vf.length).1, (e.init_lstm_state vf.length).2,
           (e.init_lstm_state vf.length).1, (e.init_lstm_state vf.length).2)).1)
    ∧ Encoder.step e x (h1, c1, h2, c2) =
      (rowScale (e.lstm1_drop (e.lstm1_cell x (h1, c1)).1)
          ((e.bd x h1).map (fun a => 1 - a)),
       rowScale ((e.lstm1_cell x (h1, c1)).2)
          ((e.bd x h1).map (fun a => 1 - a)),
       e.lstm2_drop (e.lstm2_cell
           (rowScale (e.lstm1_drop (e.lstm1_cell x (h1, c1)).1) (e.bd x h1))
           (h2, c2)).1,
       (e.lstm2_cell
           (rowScale (e.lstm1_drop (e.lstm1_cell x (h1, c1)).1) (e.bd x h1))
           (h2, c2)).2)
    ∧ ((e.bd x h1).getD b 0 = 1 →
       (Encoder.step e x (h1, c1, h2, c2)).1.getD b [] =
          List.replicate
            ((e.lstm1_drop (e.lstm1_cell x (h1, c1)).1).getD b []).length 0 ∧
       (Encoder.step e x (h1, c1, h2, c2)).2.1.getD b [] =
          List.replicate (((e.lstm1_cell x (h1, c1)).2).getD b []).length 0)
    ∧ ((e.bd x h1).getD b 0 = 0 →
       (Encoder.step e x (h1, c1, h2, c2)).1.getD b [] =
          (e.lstm1_drop (e.lstm1_cell x (h1, c1)).1).getD b [] ∧
       (Encoder.step e x (h1, c1, h2, c2)).2.1.getD b [] =
          ((e.lstm1_cell x (h1, c1)).2).getD b []) := by
  refine ⟨fun vf => rfl, rfl, ?_, ?_⟩
  · intro hs
    constructor
    · rw [show (Encoder.step e x (h1, c1, h2, c2)).1 =
          rowScale (e.lstm1_drop (e.lstm1_cell x (h1, c1)).1)
            ((e.bd x h1).map (fun a => 1 - a)) from rfl]
      rw [rowScale_getD _ _ b hbh (by simpa using hb), getD_map_lt _ _ b hb, hs]
      norm_num [map_mul_zero_eq]
    · rw [show (Encoder.step e x (h1, c1, h2, c2)).2.1 =
          rowScale ((e.lstm1_cell x (h1, c1)).2)
            ((e.bd x h1).map (fun a => 1 - a)) from rfl]
      rw [rowScale_getD _ _ b hbc (by simpa using hb), getD_map_lt _ _ b hb, hs]
      norm_num [map_mul_zero_eq]
  · intro hs
    constructor
    · rw [show (Encoder.step e x (h1, c1, h2, c2)).1 =
          rowScale (e.lstm1_drop (e.lstm1_cell x (h1, c1)).1)
            ((e.bd x h1).map (fun a => 1 - a)) from rfl]
      rw [rowScale_getD _ _ b hbh (by simpa using hb), getD_map_lt _ _ b hb, hs]
      simp
    · rw [show (Encoder.step e x (h1, c1, h2, c2)).2.1 =
          rowScale ((e.lstm1_cell x (h1, c1)).2)
            ((e.bd x h1).map (fun a => 1 - a)) from rfl]
      rw [rowScale_getD _ _ b hbc (by simpa using hb), getD_map_lt _ _ b hb, hs]
      simp

/-- A tiny concrete encoder instance (1-dimensional everything, identity
submodules, boundary detector constantly 1) used to witness C1. -/
def encW1 : Encoder :=
  ⟨1, 1, 1, 1, fun v => v, fun v => v, fun _ hc => hc, fun m => m,
   fun _ h => h.map (fun _ => (1 : ℚ)), fun _ hc => hc, fun m => m⟩

/-- Witness for C1: at a concrete step with gate value 1, the low-level
hidden state row is wiped to zero. -/
theorem encoder_step_gating_witness :
    (encW1.bd [[1]] [[2]]).getD 0 0 = 1 ∧
    (Encoder.step encW1 [[1]] ([[2]], [[3]], [[0]], [[0]])).1.getD 0 [] =
      List.replicate
        ((encW1.lstm1_drop (encW1.lstm1_cell [[1]] ([[2]], [[3]])).1).getD 0 []).length
        0 := by
  have hb : 0 < (encW1.bd [[1]] [[2]]).length := by simp [encW1]
  have hbh : 0 < (encW1.lstm1_drop (encW1.lstm1_cell [[1]] ([[2]], [[3]])).1).length := by
    simp [encW1]
  have hbc : 0 < ((encW1.lstm1_cell [[1]] ([[2]], [[3]])).2).length := by simp [encW1]
  have hg : (encW1.bd [[1]] [[2]]).getD 0 0 = 1 := by simp [encW1]
  exact ⟨hg,
    ((encoder_step_gating encW1 [[1]] [[2]] [[3]] [[0]] [[0]] 0 hb hbh hbc).2.2.1 hg).1⟩

/-- A matrix has shape `(r, c)`. -/
def wellShaped (m : Mat) (r c : ℕ) : Prop :=
  m.length = r ∧ ∀ row ∈ m, row.length = c

theorem wellShaped_replicate (b h : ℕ) :
    wellShaped (List.replicate b (List.replicate h (0 : ℚ))) b h := by
  refine ⟨by simp, fun row hr => ?_⟩
  rw [List.eq_of_mem_replicate hr]
  simp

theorem mem_rowScale :
    ∀ (m : Mat) (s : List ℚ) (row : Vec), row ∈ rowScale m s →
      ∃ r, r ∈ m ∧ ∃ a, row = r.map (fun q => q * a)
  | [], _, row => by simp [rowScale]
  | _ :: _, [], row => by simp [rowScale]
  | r :: m', a :: s', row => by
    intro h
    simp only [rowScale, List.zipWith_cons_cons, List.mem_cons] at h
    rcases h with h | h
    · exact ⟨r, List.mem_cons_self r m', a, h⟩
    · obtain ⟨r0, hr0, a0, ha0⟩ := mem_rowScale m' s' row h
      exact ⟨r0, List.mem_cons_of_mem r hr0, a0, ha0⟩

theorem wellShaped_rowScale (m : Mat) (s : List ℚ) (b h : ℕ)
    (hm : wellShaped m b h) (hs : s.length = b) :
    wellShaped (rowScale m s) b h := by
  refine ⟨by simp [rowScale, hm.1, hs], fun row hr => ?_⟩
  obtain ⟨r0, hr0, a0, ha0⟩ := mem_rowScale m s row hr
  rw [ha0]
  simpa using hm.2 r0 hr0

/-- The encoder loop preserves the shape of the low-level state, under
shape-preservation assumptions on the low-level submodules. -/
theorem encoder_fold_shape (e : Encoder) (bsz : ℕ)
    (hbd : ∀ x h, wellShaped h bsz e.hidden_size → (e.bd x h).length = bsz)
    (hcell : ∀ x h c, wellShaped h bsz e.hidden_size →
        wellShaped c bsz e.hidden_size →
        wellShaped (e.lstm1_cell x (h, c)).1 bsz e.hidden_size ∧
        wellShaped ((e.lstm1_cell x (h, c)).2) bsz e.hidden_size)
    (hdrop : ∀ m, wellShaped m bsz e.hidden_size →
        wellShaped (e.lstm1_drop m) bsz e.hidden_size)
    (l : List ℕ) (f : ℕ → Mat) :
    ∀ st : Mat × Mat × Mat × Mat,
      wellShaped st.1 bsz e.hidden_size → wellShaped st.2.1 bsz e.hidden_size →
      wellShaped ((l.foldl (fun st i => Encoder.step e (f i) st) st).1)
          bsz e.hidden_size ∧
      wellShaped ((l.foldl (fun st i => Encoder.step e (f i) st) st).2.1)
          bsz e.hidden_size := by
  induction l with
  | nil => exact fun st h1 h2 => ⟨h1, h2⟩
  | cons i l' ih =>
    intro st h1 h2
    simp only [List.foldl_cons]
    apply ih
    · have hc := hcell (f i) st.1 st.2.1 h1 h2
      have hd := hdrop _ hc.1
      have hsl : ((e.bd (f i) st.1).map (fun a => 1 - a)).length = bsz := by
        simpa using hbd (f i) st.1 h1
      exact wellShaped_rowScale _ _ _ _ hd hsl
    · have hc := hcell (f i) st.1 st.2.1 h1 h2
      have hsl : ((e.bd (f i) st.1).map (fun a => 1 - a)).length = bsz := by
        simpa using hbd (f i) st.1 h1
      exact wellShaped_rowScale _ _ _ _ hc.2 hsl

/-- C2: `Encoder.forward` returns the low-level hidden state `lstm1_h` as it
stands after the final loop step — the first component of the folded state,
whose update ends with the `(1 - s)` reset — not the high-level state; and
when the low-level submodules preserve the `(batch, hidden_size)` shape, the
returned tensor has shape `(batch, hidden_size)`, for every `max_frames`. -/
theorem encoder_forward_returns_lstm1_h_with_shape (e : Encoder)
    (video_feats : List Mat)
    (hbd : ∀ x h, wellShaped h video_feats.length e.hidden_size →
        (e.bd x h).length = video_feats.length)
    (hcell : ∀ x h c, wellShaped h video_feats.length e.hidden_size →
        wellShaped c video_feats.length e.hidden_size →
        wellShaped (e.lstm1_cell x (h, c)).1 video_feats.length e.hidden_size ∧
        wellShaped ((e.lstm1_cell x (h, c)).2) video_feats.length e.hidden_size)
    (hdrop : ∀ m, wellShaped m video_feats.length e.hidden_size →
        wellShaped (e.lstm1_drop m) video_feats.length e.hidden_size) :
    Encoder.forward e video_feats =
      ((List.range e.max_frames).foldl
          (fun st i => Encoder.step e (frameAt (e.projectFrames video_feats) i) st)
          ((e.init_lstm_state video_feats.length).1,
           (e.init_lstm_state video_feats.length).2,
           (e.init_lstm_state video_feats.length).1,
           (e.init_lstm_state video_feats.length).2)).1 ∧
    wellShaped (Encoder.forward e video_feats) video_feats.length e.hidden_size := by
  refine ⟨rfl, ?_⟩
  have h := encoder_fold_shape e video_feats.length hbd hcell hdrop
    (List.range e.max_frames)
    (fun i => frameAt (e.projectFrames video_feats) i)
    ((e.init_lstm_state video_feats.length).1,
     (e.init_lstm_state video_feats.length).2,
     (e.init_lstm_state video_feats.length).1,
     (e.init_lstm_state video_feats.length).2)
    (wellShaped_replicate _ _) (wellShaped_replicate _ _)
  exact h.1

/-- A tiny concrete encoder instance used to witness C2. -/
def encW2 : Encoder :=
  ⟨1, 1, 1, 2, fun v => v, fun v => v, fun _ hc => hc, fun m => m,
   fun _ h => h.map (fun _ => (1 : ℚ)), fun _ hc => hc, fun m => m⟩

/-- Witness for C2: on a 1-element batch with two frames, the output has
shape (1, hidden_size). -/
theorem encoder_forward_shape_witness :
    wellShaped (Encoder.forward encW2 [[[5], [7]]]) 1 1 := by
  have hbd : ∀ x h, wellShaped h 1 encW2.hidden_size →
      (encW2.bd x h).length = 1 := fun x h hs => by simp [encW2, hs.1]
  have hcell : ∀ x h c, wellShaped h 1 encW2.hidden_size →
      wellShaped c 1 encW2.hidden_size →
      wellShaped (encW2.lstm1_cell x (h, c)).1 1 encW2.hidden_size ∧
      wellShaped ((encW2.lstm1_cell x (h, c)).2) 1 encW2.hidden_size :=
    fun x h c hh hc => ⟨hh, hc⟩
  have hdrop : ∀ m, wellShaped m 1 encW2.hidden_size →
      wellShaped (encW2.lstm1_drop m) 1 encW2.hidden_size := fun m hm => hm
  exact (encoder_forward_returns_lstm1_h_with_shape encW2 [[[5], [7]]]
    hbd hcell hdrop).2

/-- Column `i` of a caption tensor: `captions[:, i]`.  Token ids are
vocabulary indices, hence natural numbers. -/
def colAt (c : List (List ℕ)) (i : ℕ) : List ℕ := c.map (fun row => row.getD i 0)

/-- Embedding of `captions[:, i].data.sum()` (model.py line 231). -/
def colSum (c : List (List ℕ)) (i : ℕ) : ℕ := (colAt c i).sum

/-- Embedding of `word_logits.max(1)[1]` for one row: the index of a maximal element
(ties resolved to the first maximal index in this model). -/
def argmaxRow (row : Vec) : ℕ :=
  ((row.enum.foldl (fun best p => if best.2 < p.2 then p else best)
      (0, row.headD 0))).1

/-- Embedding of `word_logits.max(1)[1]` on the batch. -/
def argmaxRows (m : Mat) : List ℕ := m.map argmaxRow

/-- One per-step output of `Decoder.forward`: raw vocabulary logits in
training mode (`Sum.inl`), selected token ids in inference mode
(`Sum.inr`). -/
abbrev StepOut := Mat ⊕ List ℕ

/-- The `Decoder` module (model.py lines 185-209).  `startId`/`endId` model
`self.vocab('<start>')`/`self.vocab('<end>')` and `idx2word` models
`self.vocab.idx2word`; the layers are function-valued fields as in
`Encoder` (`gru_cell` maps `(input, h)` to the new `h`). -/
structure Decoder where
  hidden_size : ℕ
  max_words : ℕ
  startId : ℕ
  endId : ℕ
  idx2word : ℕ → String
  word_embed : List ℕ → Mat
  word_drop : Mat → Mat
  v2m : Mat → Mat
  w2m : Mat → Mat
  gru_cell : Mat → Mat → Mat
  gru_drop : Mat → Mat
  word_restore : Mat → Mat

/-- The loop of `Decoder.forward` (model.py lines 230-256), with the step
counter `i` and the remaining fuel `max_words - i` explicit.  `inf` is the
`infer` flag, `c` the caption tensor (unused when `inf = true`), `vm` the
precomputed video projection, `p` the teacher-forcing probability, and
`coins i` the value of the `random.random()` draw at step `i`:
if `not infer and captions[:, i].data.sum() == 0: break`;
`wm = w2m(word)`; `m = vm + wm`; `gru_h = gru_drop(gru_cell(m, gru_h))`;
`word_logits = word_restore(gru_h)`;
`use_teacher_forcing = not infer and (random.random() < p)`;
`word_id = captions[:, i] if use_teacher_forcing else word_logits.max(1)[1]`;
append `word_id` if infer else `word_logits`;
`word = word_drop(word_embed(word_id))`. -/
def decLoop (d : Decoder) (inf : Bool) (c : List (List ℕ)) (vm : Mat)
    (p : ℚ) (coins : ℕ → ℚ) : ℕ → ℕ → Mat → Mat → List StepOut
  | 0, _, _, _ => []
  | Nat.succ fuel, i, word, gru_h =>
    if inf = false ∧ colSum c i = 0 then []
    else
      let wm := d.w2m word
      let m := matAdd vm wm
      let gru_h2 := d.gru_drop (d.gru_cell m gru_h)
      let word_logits := d.word_restore gru_h2
      let use_tf := inf = false ∧ coins i < p
      let word_id := if use_tf then colAt c i else argmaxRows word_logits
      let out : StepOut := if inf then Sum.inr word_id else Sum.inl word_logits
      let word2 := d.word_drop (d.word_embed word_id)
      out :: decLoop d inf c vm p coins fuel (i + 1) word2 gru_h2

/-- Embedding of `Decoder.forward` up to the final `torch.cat` (model.py lines 215-256):
`infer = captions is None`; `gru_h` initialized to zeros (`_init_gru_state`,
lines 211-213); the first input word is the embedded, dropout-applied
`<start>` token (lines 224-227); `vm = v2m(video_encoded)` once (line 229);
then the step loop.  The returned list is the per-step `outputs` list,
step-major. -/
def Decoder.run (d : Decoder) (video_encoded : Mat)
    (captions : Option (List (List ℕ))) (p : ℚ) (coins : ℕ → ℚ) :
    List StepOut :=
  let batch_size := video_encoded.length
  let infer := captions.isNone
  let gru_h := List.replicate batch_size (List.replicate d.hidden_size (0 : ℚ))
  let word := d.word_drop (d.word_embed (List.replicate batch_size d.startId))
  let vm := d.v2m video_encoded
  decLoop d infer (captions.getD []) vm p coins d.max_words 0 word gru_h

/-- Embedding of `Decoder.forward` including line 260:
`torch.cat([o.unsqueeze(1) for o in outputs], 1)` raises a `RuntimeError`
when `outputs` is empty, modelled as `none`; otherwise it only reshapes the
step-major output list to batch-major, which this model leaves step-major,
so a successful call returns `some` of the output list. -/
def Decoder.forward (d : Decoder) (video_encoded : Mat)
    (captions : Option (List (List ℕ))) (p : ℚ) (coins : ℕ → ℚ) :
    Option (List StepOut) :=
  let outputs := Decoder.run d video_encoded captions p coins
  if outputs.isEmpty then none else some outputs

/-- The loop of `Decoder.decode_tokens` (model.py lines 273-278): scan the
token list in order, stop at the first `<end>` token, and collect the words
`idx2word[token]` of the survivors. -/
def decodeLoop (d : Decoder) : List ℕ → List String
  | [] => []
  | t :: ts => if t = d.endId then [] else d.idx2word t :: decodeLoop d ts

/-- Embedding of `Decoder.decode_tokens` (model.py lines 269-280): the collected words
joined by single spaces (`' '.join(words)`). -/
def Decoder.decode_tokens (d : Decoder) (tokens : List ℕ) : String :=
  String.intercalate " " (decodeLoop d tokens)

theorem decodeLoop_eq_takeWhile (d : Decoder) (tokens : List ℕ) :
    decodeLoop d tokens =
      (tokens.takeWhile (fun t => t != d.endId)).map d.idx2word := by
  induction tokens with
  | nil => rfl
  | cons t ts ih =>
    by_cases ht : t = d.endId
    · simp [decodeLoop, List.takeWhile_cons, ht]
    · simp [decodeLoop, List.takeWhile_cons, ht, ih]

/-- The concrete vocabulary of the C9 example: ids 5, 7, 9 map to the words
of the claim and 3 is the end-of-sentence id; the tensor-layer fields are
irrelevant to `decode_tokens` and are inhabited trivially. -/
def decW9 : Decoder :=
  ⟨0, 0, 0, 3,
   fun t => if t = 5 then "a" else if t = 7 then "dog" else
     if t = 9 then "run" else "",
   fun _ => [], fun m => m, fun m => m, fun m => m, fun _ h => h,
   fun m => m, fun m => m⟩

/-- C9: `Decoder.decode_tokens` scans the id list in order, truncates at the
first occurrence of the end token, maps the survivors through `idx2word` and
joins them with single spaces; in particular on tokens `[5, 7, end, 9]` with
`5 ↦ "a"`, `7 ↦ "dog"`, `9 ↦ "run"` it returns `"a dog"`. -/
theorem decode_tokens_truncates_and_joins :
    (∀ (d : Decoder) (tokens : List ℕ),
        Decoder.decode_tokens d tokens =
          String.intercalate " "
            ((tokens.takeWhile (fun t => t != d.endId)).map d.idx2word)) ∧
    Decoder.decode_tokens decW9 [5, 7, 3, 9] = "a dog" := by
  constructor
  · intro d tokens
    rw [Decoder.decode_tokens, decodeLoop_eq_takeWhile]
  · rfl

/-- Emptiness of the decoder loop when the current caption column sums to
zero. -/
theorem decLoop_nil_of_colSum_zero (d : Decoder) (c : List (List ℕ)) (vm : Mat)
    (p : ℚ) (coins : ℕ → ℚ) (fuel i : ℕ) (word gru_h : Mat)
    (h : colSum c i = 0) :
    decLoop d false c vm p coins fuel i word gru_h = [] := by
  cases fuel with
  | zero => rfl
  | succ f => simp [decLoop, h]

/-- C10: in training mode, if the first caption column sums to zero (with
ℕ-valued token ids: every first target token is the pad id 0), the loop
breaks before producing any step output, `torch.cat` is applied to an empty
list, and the call fails (modelled as `none`); hence a successful
training-mode call needs a non-pad token in the first column. -/
theorem decoder_all_pad_first_column_errors (d : Decoder) (v : Mat)
    (c : List (List ℕ)) (p : ℚ) (coins : ℕ → ℚ)
    (h : colSum c 0 = 0) :
    Decoder.forward d v (some c) p coins = none := by
  have hrun : Decoder.run d v (some c) p coins = [] := by
    unfold Decoder.run
    simp only [Option.isNone_some, Option.getD_some]
    exact decLoop_nil_of_colSum_zero d c _ p coins d.max_words 0 _ _ h
  unfold Decoder.forward
  rw [hrun]
  rfl

/-- A tiny concrete decoder used by the Decoder witnesses and the C8
counterexample: identity-like layers on 1×1 tensors, a two-word
vocabulary. -/
def decW : Decoder :=
  ⟨1, 1, 0, 3, fun _ => "", fun ids => ids.map (fun _ => [0]),
   fun m => m, fun m => m, fun m => m, fun m _ => m, fun m => m, fun m => m⟩

/-- Witness for C10: a batch of one caption whose first token is the pad id
0 makes the training-mode forward call fail. -/
theorem decoder_all_pad_first_column_errors_witness :
    colSum [[0]] 0 = 0 ∧
    Decoder.forward decW [[0]] (some [[0]]) 0 (fun _ => 0) = none :=
  ⟨rfl, decoder_all_pad_first_column_errors decW [[0]] [[0]] 0 (fun _ => 0) rfl⟩

/-- In inference mode the decoder loop never breaks: it runs through all its
fuel. -/
theorem decLoop_length_infer (d : Decoder) (c : List (List ℕ)) (vm : Mat)
    (p : ℚ) (coins : ℕ → ℚ) :
    ∀ (fuel i : ℕ) (word gru_h : Mat),
      (decLoop d true c vm p coins fuel i word gru_h).length = fuel := by
  intro fuel
  induction fuel with
  | zero => intro i word gru_h; rfl
  | succ f ih =>
    intro i word gru_h
    simp only [decLoop]
    have : ¬(true = false ∧ colSum c i = 0) := by simp
    rw [if_neg this]
    simp [ih]

/-- In training mode the number of steps the decoder loop executes starting
at index `i` with the given fuel is determined by the first column (at or
after `i`, within fuel) whose sum is zero. -/
theorem decLoop_length_train (d : Decoder) (c : List (List ℕ)) (vm : Mat)
    (p : ℚ) (coins : ℕ → ℚ) :
    ∀ (fuel i : ℕ) (word gru_h : Mat),
      (decLoop d false c vm p coins fuel i word gru_h).length =
        ((((List.range' i fuel).find? (fun j => colSum c j == 0)).map
            (fun j => j - i)).getD fuel) := by
  intro fuel
  induction fuel with
  | zero => intro i word gru_h; rfl
  | succ f ih =>
    intro i word gru_h
    rw [List.range'_succ]
    by_cases h : colSum c i = 0
    · have hp : (fun j => colSum c j == 0) i = true := by simp [h]
      rw [List.find?_cons_of_pos (p := fun j => colSum c j == 0) _ hp]
      simp [decLoop_nil_of_colSum_zero d c vm p coins (f + 1) i word gru_h h]
    · have hp : ¬((fun j => colSum c j == 0) i = true) := by simp [h]
      rw [List.find?_cons_of_neg (p := fun j => colSum c j == 0) _ hp]
      have hlen : (decLoop d false c vm p coins (f + 1) i word gru_h).length =
          (decLoop d false c vm p coins f (i + 1)
            (d.word_drop (d.word_embed
              (if false = false ∧ coins i < p then colAt c i
               else argmaxRows (d.word_restore
                 (d.gru_drop (d.gru_cell (matAdd vm (d.w2m word)) gru_h))))))
            (d.gru_drop (d.gru_cell (matAdd vm (d.w2m word)) gru_h))).length + 1 := by
        simp only [decLoop]
        rw [if_neg (by simp [h])]
        simp
      rw [hlen, ih]
      cases hfind : (List.range' (i + 1) f).find? (fun j => colSum c j == 0) with
      | none => simp
      | some j =>
        have hj : j ∈ List.range' (i + 1) f := List.mem_of_find?_eq_some hfind
        have hij : i + 1 ≤ j := (List.mem_range'_1.mp hj).1
        simp only [Option.map_some', Option.getD_some]
        omega

/-- C6: in training mode (a caption tensor is passed), `Decoder.forward`
executes exactly the steps before the first index `i < max_words` at which
the target column `captions[:, i]` sums to zero — equivalently, with
ℕ-valued token ids, at which every batch element's target token is the pad
id 0 — and runs all `max_words` steps when no such column exists; in
inference mode (`captions = None`) no early stop occurs and all `max_words`
steps run. -/
theorem decoder_early_stop (d : Decoder) (v : Mat) (c : List (List ℕ))
    (p : ℚ) (coins : ℕ → ℚ) :
    (Decoder.run d v (some c) p coins).length =
      (((List.range d.max_words).find? (fun j => colSum c j == 0)).getD
        d.max_words) ∧
    (∀ i, colSum c i = 0 ↔ ∀ row ∈ c, row.getD i 0 = 0) ∧
    (Decoder.run d v none p coins).length = d.max_words := by
  refine ⟨?_, ?_, ?_⟩
  · show (decLoop d false c (d.v2m v) p coins d.max_words 0 _ _).length = _
    rw [decLoop_length_train, List.range_eq_range' d.max_words]
    cases hfind : (List.range' 0 d.max_words).find? (fun j => colSum c j == 0) with
    | none => simp
    | some j => simp
  · intro i
    rw [colSum, List.sum_eq_zero_iff]
    simp [colAt]
  · exact decLoop_length_infer d [] (d.v2m v) p coins d.max_words 0 _ _

/-- In inference mode the decoder loop depends neither on the caption
tensor nor on the teacher-forcing probability nor on the random draws. -/
theorem decLoop_infer_independent (d : Decoder) (c1 c2 : List (List ℕ))
    (vm : Mat) (p1 p2 : ℚ) (z1 z2 : ℕ → ℚ) :
    ∀ (fuel i : ℕ) (word gru_h : Mat),
      decLoop d true c1 vm p1 z1 fuel i word gru_h =
        decLoop d true c2 vm p2 z2 fuel i word gru_h := by
  intro fuel
  induction fuel with
  | zero => intro i word gru_h; rfl
  | succ f ih =>
    intro i word gru_h
    simp only [decLoop]
    rw [if_neg (by simp : ¬(true = false ∧ colSum c1 i = 0)),
        if_neg (by simp : ¬(true = false ∧ colSum c2 i = 0))]
    rw [if_neg (by simp : ¬(true = false ∧ z1 i < p1)),
        if_neg (by simp : ¬(true = false ∧ z2 i < p2))]
    exact congrArg (List.cons _) (ih (i + 1) _ _)

/-- C7: one non-stopped step of the decoder loop selects the next input
token as the ground-truth column `captions[:, i]` exactly when training and
the step's uniform draw falls below the teacher-forcing probability, and as
the greedy argmax of the step's vocabulary logits otherwise; it appends the
raw logits to the output in training mode and the selected token ids in
inference mode.  At inference the whole run is independent of the
probability and of the draws (always greedy). -/
theorem decoder_step_token_selection (d : Decoder) (inf : Bool)
    (c : List (List ℕ)) (v vm : Mat) (p : ℚ) (coins : ℕ → ℚ)
    (fuel i : ℕ) (word gru_h : Mat)
    (hstop : inf = true ∨ colSum c i ≠ 0) :
    (decLoop d inf c vm p coins (fuel + 1) i word gru_h =
      (let gru_h2 := d.gru_drop (d.gru_cell (matAdd vm (d.w2m word)) gru_h)
       let word_logits := d.word_restore gru_h2
       let word_id := if inf = false ∧ coins i < p then colAt c i
                      else argmaxRows word_logits
       (if inf then (Sum.inr word_id : StepOut) else Sum.inl word_logits) ::
         decLoop d inf c vm p coins fuel (i + 1)
           (d.word_drop (d.word_embed word_id)) gru_h2)) ∧
    (∀ (p2 : ℚ) (z2 : ℕ → ℚ),
      Decoder.run d v none p coins = Decoder.run d v none p2 z2) := by
  constructor
  · have hcond : ¬(inf = false ∧ colSum c i = 0) := by
      rcases hstop with h | h
      · subst h; simp
      · simp [h]
    simp only [decLoop]
    rw [if_neg hcond]
  · intro p2 z2
    exact decLoop_infer_independent d [] [] (d.v2m v) p p2 coins z2
      d.max_words 0 _ _

/-- Witness for C7 at a concrete inference step: the appended output is the
token-id vector of the greedy argmax. -/
theorem decoder_step_token_selection_witness :
    decLoop decW true [] [[0]] 0 (fun _ => 0) 1 0 [[0]] [[0]] =
      [Sum.inr [0]] := by
  rw [(decoder_step_token_selection decW true [] [[0]] [[0]] 0 (fun _ => 0)
      0 0 [[0]] [[0]] (Or.inl rfl)).1]
  norm_num [decW, matAdd, vecAdd, argmaxRows, argmaxRow, decLoop]

/-- Counterexample to C8 as stated: passing a (well-formed but otherwise
arbitrary) caption with teacher_forcing_ratio = 0 does not yield output
identical to calling with captions = None — passing any caption switches
the decoder to training mode, which returns per-step logits instead of
token ids. -/
theorem decoder_caption_changes_output :
    Decoder.forward decW [[0]] (some [[1]]) 0 (fun _ => 0) ≠
      Decoder.forward decW [[0]] none 0 (fun _ => 0) := by
  have h1 : Decoder.forward decW [[0]] (some [[1]]) 0 (fun _ => 0) =
      some [Sum.inl [[0]]] := by
    norm_num [Decoder.forward, Decoder.run, decLoop, decW, matAdd, vecAdd,
      argmaxRows, argmaxRow, colSum, colAt]
  have h2 : Decoder.forward decW [[0]] none 0 (fun _ => 0) =
      some [Sum.inr [0]] := by
    norm_num [Decoder.forward, Decoder.run, decLoop, decW, matAdd, vecAdd,
      argmaxRows, argmaxRow]
  rw [h1, h2]
  simp

/-- When no step's draw falls below the teacher-forcing probability, the
training-mode decoder loop reads the caption only through the early-stop
column-sum test. -/
theorem decLoop_no_tf_caption_noninterference (d : Decoder)
    (c c' : List (List ℕ)) (vm : Mat) (p : ℚ) (coins : ℕ → ℚ)
    (hp : ∀ i, ¬(coins i < p))
    (hcol : ∀ i, (colSum c i = 0) ↔ (colSum c' i = 0)) :
    ∀ (fuel i : ℕ) (word gru_h : Mat),
      decLoop d false c vm p coins fuel i word gru_h =
        decLoop d false c' vm p coins fuel i word gru_h := by
  intro fuel
  induction fuel with
  | zero => intro i word gru_h; rfl
  | succ f ih =>
    intro i word gru_h
    by_cases h : colSum c i = 0
    · rw [decLoop_nil_of_colSum_zero d c vm p coins (f + 1) i word gru_h h,
          decLoop_nil_of_colSum_zero d c' vm p coins (f + 1) i word gru_h
            ((hcol i).mp h)]
    · simp only [decLoop]
      rw [if_neg (by simp [h] : ¬(True ∧ colSum c i = 0)),
          if_neg (show ¬(True ∧ colSum c' i = 0) from by
            simp only [true_and]
            exact fun hz => h ((hcol i).mpr hz))]
      have htf : ¬(True ∧ coins i < p) := by simp [hp i]
      rw [if_neg htf, if_neg htf]
      exact congrArg (List.cons _) (ih (i + 1) _ _)

/-- C8 (amended): the caption tensor can be consulted as soon as one is
passed — inference mode is exactly `captions = None`, where trivially no
caption is read.  When a caption is passed together with draws that never
fall below the teacher-forcing probability (in particular ratio 0 with the
nonnegative draws of random.random()), the caption influences the output
only through the early-stop pattern of its zero-sum columns: two captions
with the same pattern give identical outputs. -/
theorem decoder_zero_ratio_caption_noninterference (d : Decoder) (v : Mat)
    (p : ℚ) (coins : ℕ → ℚ) (c c' : List (List ℕ))
    (hp : ∀ i, ¬(coins i < p))
    (hcol : ∀ i, (colSum c i = 0) ↔ (colSum c' i = 0)) :
    Decoder.run d v (some c) p coins = Decoder.run d v (some c') p coins := by
  exact decLoop_no_tf_caption_noninterference d c c' (d.v2m v) p coins hp hcol
    d.max_words 0 _ _

/-- Witness for the amended C8: two different captions with the same
zero-column pattern, ratio 0, draws 0. -/
theorem decoder_zero_ratio_caption_noninterference_witness :
    Decoder.run decW [[0]] (some [[1]]) 0 (fun _ => 0) =
      Decoder.run decW [[0]] (some [[2]]) 0 (fun _ => 0) := by
  have hp : ∀ i : ℕ, ¬((fun _ : ℕ => (0 : ℚ)) i < 0) := fun i => by norm_num
  have hcol : ∀ i, (colSum [[1]] i = 0) ↔ (colSum [[2]] i = 0) := by
    intro i
    cases i with
    | zero => simp [colSum, colAt]
    | succ n => simp [colSum, colAt]
  exact decoder_zero_ratio_caption_noninterference decW [[0]] 0 (fun _ => 0)
    [[1]] [[2]] hp hcol
